import Mathlib

/-!
Verification development for the Ore runtime's object model
(`src/Runtime/Object.cpp`) and REPL host (`REPL/main.cpp`).

Shallow embedding conventions:
* `Value`, `PropertyKey` and the base `Cell` hook are declared in headers that
  are not part of the sources; they are modelled from the spec where noted.
* `std::map<std::string, Value>` is modelled as an association list ordered by
  key, with the standard lookup / insert-or-assign / count semantics.
* Mutating C++ methods are state passing: they return the outcome paired with
  the resulting object; `assert` failures and `std::map::at` lookup failures
  are explicit `Outcome` constructors (an assertion failure aborts the
  process, it is not a catchable language-level exception).
-/

namespace Ore

/-- Modelled from the spec: `Value` is a tagged union with variants Nil,
Boolean, Number and CellRef (a handle to a heap cell, here a numeric id).
The exception flag plays no role in the object-store claims. -/
inductive Value where
  | nil
  | boolean (b : Bool)
  | number (n : Int)
  | cellRef (id : Nat)
deriving DecidableEq, Repr

/-- `Value::is_cell()`: true exactly on the `cellRef` variant. -/
def Value.is_cell : Value → Bool
  | .cellRef _ => true
  | _ => false

/-- Modelled from the spec: `PropertyKey` is "always backed by a string;
other key forms (e.g. integer keys) are a future extension" that the code
asserts against, so the model includes a numeric variant. -/
inductive PropertyKey where
  | string (s : String)
  | number (n : Int)
deriving DecidableEq, Repr

/-- `PropertyKey::is_string()`. -/
def PropertyKey.is_string : PropertyKey → Bool
  | .string _ => true
  | .number _ => false

/-- `PropertyKey::string()`: the backing string (only meaningful under
`is_string`, where the source's assertions confine its use). -/
def PropertyKey.asString : PropertyKey → String
  | .string s => s
  | .number _ => ""

/-- Outcome of one `Object` method call: normal return, `assert` failure
(process abort, not a catchable language exception), or `std::map::at`
signalling that the key is absent. -/
inductive Outcome (α : Type) where
  | ok (a : α)
  | assertFail
  | lookupFail
deriving DecidableEq, Repr

/-- The property map: `std::map<std::string, Value>` as an association list
kept sorted by key (the order `std::map` iterates in). -/
def PropMap := List (String × Value)

/-- Lookup, as `std::map::at` / `std::map::count` observe the map. -/
def mapLookup (k : String) : List (String × Value) → Option Value
  | [] => none
  | (k', v') :: rest => if k' = k then some v' else mapLookup k rest

/-- `std::map::operator[] =`: insert a fresh key at its sorted position, or
overwrite the mapped value of an existing key. -/
def mapInsert (k : String) (v : Value) : List (String × Value) → List (String × Value)
  | [] => [(k, v)]
  | (k', v') :: rest =>
    if k = k' then (k, v) :: rest
    else if k < k' then (k, v) :: (k', v') :: rest
    else (k', v') :: mapInsert k v rest

/-- An `Ore::Object`'s own state: its property map `m_properties`. -/
structure Object where
  m_properties : List (String × Value)
deriving DecidableEq, Repr

/-- `Object::get` (src/Runtime/Object.cpp:13): assert the key is string-form,
then `m_properties.at(key.string())`. `at` on a const map never inserts; the
method is const, so the returned object state equals the input. -/
def Object.get (o : Object) (key : PropertyKey) : Outcome Value × Object :=
  if key.is_string then
    match mapLookup key.asString o.m_properties with
    | some v => (.ok v, o)
    | none => (.lookupFail, o)
  else (.assertFail, o)

/-- `Object::put` (src/Runtime/Object.cpp:19): assert the key is string-form,
then `m_properties[key.string()] = value` (insert-or-overwrite). -/
def Object.put (o : Object) (key : PropertyKey) (v : Value) : Outcome Unit × Object :=
  if key.is_string then
    (.ok (), ⟨mapInsert key.asString v o.m_properties⟩)
  else (.assertFail, o)

/-- `Object::contains` (src/Runtime/Object.cpp:25): assert the key is
string-form, then `m_properties.count(key.string())` (0 or 1, as Bool). -/
def Object.contains (o : Object) (key : PropertyKey) : Outcome Bool × Object :=
  if key.is_string then
    ((.ok (mapLookup key.asString o.m_properties).isSome), o)
  else (.assertFail, o)

/-- A freshly constructed object: empty property map. -/
def Object.fresh : Object := ⟨[]⟩

/-- Run a sequence of `put(k, v)` calls with string keys, in order. -/
def applyPuts (o : Object) : List (String × Value) → Object
  | [] => o
  | (k, v) :: rest => applyPuts (o.put (.string k) v).2 rest

/-- The value of the most recent `put(k, _)` in a sequence, if any. -/
def lastPut (k : String) : List (String × Value) → Option Value
  | [] => none
  | (k', v') :: rest =>
    match lastPut k rest with
    | some v => some v
    | none => if k' = k then some v' else none

/-! ### The heap and `visit_graph`

Cells live in a heap, modelled as a list indexed by cell id.  The kinds the
claims need are `Object`, `ArrayObject` (ordered elements plus properties)
and `PrimitiveString`. -/

inductive HeapCell where
  | object (props : List (String × Value))
  | arrayObject (elements : List Value) (props : List (String × Value))
  | primitiveString (s : String)
deriving DecidableEq, Repr

/-- The ids appearing in the `CellRef`-tagged values of a list, in order:
exactly the values for which `value.is_cell()` holds in the source's loop. -/
def cellIds (vs : List Value) : List Nat :=
  vs.filterMap fun v => match v with | .cellRef id => some id | _ => none

/-- Second components of a property map, in iteration order. -/
def propValues (props : List (String × Value)) : List Value :=
  props.map Prod.snd

/-- Sequence a list of fallible computations, as the source's `for` loop runs
the per-child calls in order (`none` = a child call never returned). -/
def mapOpt (f : α → Option β) : List α → Option (List β)
  | [] => some []
  | a :: l =>
    match f a, mapOpt f l with
    | some b, some bs => some (b :: bs)
    | _, _ => none

/-- The mark-phase entry point `visit_graph(visitor)`, run on the cell with
id `id` in heap `h`.  The result is the trace of visitor callbacks (cell ids
reported to the visitor, in order); `none` models a call that does not return
within `fuel` nested calls — `∀ fuel, … = none` is non-termination.

* `Object::visit_graph` (src/Runtime/Object.cpp:4) first calls the base hook
  `Cell::visit_graph(visitor)` and then, for each property value with
  `value.is_cell()`, calls `value.as_cell()->visit_graph(visitor)` — the
  recursion is unconditional and performed by the cell itself.
* Modelled from the spec: the base hook `Cell::visit_graph` (its header is
  not among the sources) "marks/reports the cell itself" to the visitor, one
  callback; `visit_graph` dispatches dynamically on the cell's kind; a
  `PrimitiveString` holds no references (base hook only); an `ArrayObject`
  must report its elements and then its properties. -/
def visitGraph (h : List HeapCell) : Nat → Nat → Option (List Nat)
  | 0, _ => none
  | fuel + 1, id =>
    match h[id]? with
    | none => none
    | some (.primitiveString _) => some [id]
    | some (.object props) =>
      match mapOpt (fun c => visitGraph h fuel c) (cellIds (propValues props)) with
      | some ts => some (id :: ts.flatten)
      | none => none
    | some (.arrayObject elements props) =>
      match mapOpt (fun c => visitGraph h fuel c)
          (cellIds elements ++ cellIds (propValues props)) with
      | some ts => some (id :: ts.flatten)
      | none => none

/-! ### REPL host: script-mode `args` setup (REPL/main.cpp:223-238)

The host allocates an `ArrayObject`, then for each of
`{script} ++ passed_args` allocates a `PrimitiveString` cell and pushes a
reference to it onto the array's elements, then stores a reference to the
array under the global object's `"args"` property. -/

/-- Host-visible state: the heap of cells and the global object.  (The global
object is itself heap-resident in the source; only its property map matters
to the claims, so it is carried directly.) -/
structure HostState where
  heap : List HeapCell
  global : Object
deriving DecidableEq, Repr

/-- `heap.allocate<T>(…)`: construct the cell in heap-owned storage and hand
back its id (never fails).  New cells go at the end; the id is the index. -/
def allocateCell (h : List HeapCell) (c : HeapCell) : Nat × List HeapCell :=
  (h.length, h ++ [c])

/-- One iteration of the source's loop: allocate a `PrimitiveString` for
`arg` and `push_back` a reference to it onto the array cell's elements. -/
def pushArg (h : List HeapCell) (aid : Nat) (arg : String) : List HeapCell :=
  let alloc := allocateCell h (.primitiveString arg)
  match alloc.2[aid]? with
  | some (.arrayObject elements props) =>
    alloc.2.set aid (.arrayObject (elements ++ [Value.cellRef alloc.1]) props)
  | _ => alloc.2

/-- The whole loop `for (auto& arg : args) …`. -/
def pushArgs (h : List HeapCell) (aid : Nat) : List String → List HeapCell
  | [] => h
  | a :: rest => pushArgs (pushArg h aid a) aid rest

/-- Script-mode `args` setup: `args = {script} ++ passed_args`; allocate the
array; push a fresh string cell per argument; then
`global_object->put(PropertyKey("args"), args_array)`. -/
def setupArgs (st : HostState) (script : String) (passed : List String) : HostState :=
  let args := script :: passed
  let alloc := allocateCell st.heap (.arrayObject [] [])
  let h2 := pushArgs alloc.2 alloc.1 args
  { heap := h2
    global := (st.global.put (.string "args") (.cellRef alloc.1)).2 }

/-! ### REPL piece reader: bracket counters (REPL/main.cpp:84-150)

`read_next_piece` keeps three `size_t` counters; each non-Eof token either
increments one, decrements one (unsigned wrap-around), or leaves all
unchanged.  The `assert(… >= 0)` checks at the top of the loop compare an
unsigned value against 0. -/

/-- The token kinds `read_next_piece` switches on; every other token type
(and anything before Eof) is `other`. -/
inductive TokenType where
  | parenOpen | parenClose
  | bracketOpen | bracketClose
  | curlyOpen | curlyClose
  | other
deriving DecidableEq, Repr

/-- The three `size_t` counters, values taken modulo `2^w`. -/
structure PieceCounters where
  open_parens : Nat
  open_brackets : Nat
  open_curlies : Nat
deriving DecidableEq, Repr

/-- `x++` on a `w`-bit unsigned counter. -/
def incWrap (w x : Nat) : Nat := (x + 1) % 2 ^ w

/-- `x--` on a `w`-bit unsigned counter: subtraction wraps modulo `2^w`,
never producing a negative value. -/
def decWrap (w x : Nat) : Nat := (x + (2 ^ w - 1)) % 2 ^ w

/-- The effect of one token on the counters (the `switch` in the source). -/
def stepToken (w : Nat) (s : PieceCounters) : TokenType → PieceCounters
  | .parenOpen => { s with open_parens := incWrap w s.open_parens }
  | .parenClose => { s with open_parens := decWrap w s.open_parens }
  | .bracketOpen => { s with open_brackets := incWrap w s.open_brackets }
  | .bracketClose => { s with open_brackets := decWrap w s.open_brackets }
  | .curlyOpen => { s with open_curlies := incWrap w s.open_curlies }
  | .curlyClose => { s with open_curlies := decWrap w s.open_curlies }
  | .other => s

/-- Counter state after a sequence of tokens. -/
def runTokens (w : Nat) (s : PieceCounters) : List TokenType → PieceCounters
  | [] => s
  | t :: ts => runTokens w (stepToken w s t) ts

/-- The three `assert(x >= 0)` checks: each compares an unsigned value with
zero. -/
def countersAssertion (s : PieceCounters) : Prop :=
  0 ≤ s.open_parens ∧ 0 ≤ s.open_brackets ∧ 0 ≤ s.open_curlies

/-- Counters at the start of `read_next_piece`. -/
def initCounters : PieceCounters := ⟨0, 0, 0⟩

/-- Repeated `contains` calls: `containsN o key n` is the result of calling
`contains` on the object (n + 1) times, threading the object state through. -/
def containsN (o : Object) (key : PropertyKey) : Nat → Outcome Bool × Object
  | 0 => o.contains key
  | n + 1 => ((containsN o key n).2).contains key

/-! ### Concrete heaps and states used by witnesses and counterexamples -/

/-- A single object whose property `"self"` holds a reference to itself. -/
def selfLoopHeap : List HeapCell := [.object [("self", Value.cellRef 0)]]

/-- A two-level chain: object 0 references object 1, which references the
string cell 2. -/
def chainHeap : List HeapCell :=
  [.object [("b", Value.cellRef 1)], .object [("c", Value.cellRef 2)], .primitiveString "x"]

/-- An object with one non-cell and one cell-valued property. -/
def wHeap : List HeapCell :=
  [.object [("n", Value.nil), ("x", Value.cellRef 1)], .primitiveString "s"]

/-- An object with one cell-valued and one boolean property. -/
def cexHeap2 : List HeapCell :=
  [.object [("a", Value.cellRef 1), ("z", Value.boolean true)], .primitiveString "w"]

/-- An empty host state. -/
def st0 : HostState := ⟨[], Object.fresh⟩

/-! ### Helper lemmas -/

theorem put_string_eq (o : Object) (s : String) (v : Value) :
    o.put (.string s) v = (.ok (), ⟨mapInsert s v o.m_properties⟩) := rfl

theorem get_string_eq (o : Object) (s : String) :
    o.get (.string s) =
      match mapLookup s o.m_properties with
      | some v => (.ok v, o)
      | none => (.lookupFail, o) := rfl

theorem contains_string_eq (o : Object) (s : String) :
    o.contains (.string s) = (.ok (mapLookup s o.m_properties).isSome, o) := rfl

theorem mapLookup_mapInsert_self (k : String) (v : Value) (l : List (String × Value)) :
    mapLookup k (mapInsert k v l) = some v := by
  induction l with
  | nil => simp [mapInsert, mapLookup]
  | cons p rest ih =>
    obtain ⟨k', v'⟩ := p
    by_cases hk : k = k'
    · simp [mapInsert, hk, mapLookup]
    · by_cases hlt : k < k'
      · simp [mapInsert, hk, hlt, mapLookup]
      · simp [mapInsert, hk, hlt, mapLookup, Ne.symm hk, ih]

theorem mapLookup_mapInsert_ne (k k2 : String) (v : Value) (l : List (String × Value))
    (h : k ≠ k2) : mapLookup k (mapInsert k2 v l) = mapLookup k l := by
  induction l with
  | nil => simp [mapInsert, mapLookup, Ne.symm h]
  | cons p rest ih =>
    obtain ⟨k', v'⟩ := p
    by_cases h1 : k2 = k'
    · subst h1; simp [mapInsert, mapLookup, Ne.symm h]
    · by_cases h2 : k2 < k'
      · simp [mapInsert, h1, h2, mapLookup, Ne.symm h]
      · simp [mapInsert, h1, h2, mapLookup, ih]

theorem lookup_applyPuts (ops : List (String × Value)) : ∀ (o : Object) (k : String),
    mapLookup k (applyPuts o ops).m_properties =
      match lastPut k ops with
      | some v => some v
      | none => mapLookup k o.m_properties := by
  induction ops with
  | nil => intro o k; simp [applyPuts, lastPut]
  | cons p rest ih =>
    intro o k
    obtain ⟨k', v'⟩ := p
    simp only [applyPuts]
    rw [ih]
    cases hrest : lastPut k rest with
    | some v => simp [lastPut, hrest]
    | none =>
      simp only [lastPut, hrest]
      by_cases hk : k' = k
      · subst hk; simp [put_string_eq, mapLookup_mapInsert_self]
      · simp [hk, put_string_eq, mapLookup_mapInsert_ne k k' v' _ (Ne.symm hk)]

theorem lastPut_isSome_iff (k : String) (ops : List (String × Value)) :
    (lastPut k ops).isSome = true ↔ ∃ v, (k, v) ∈ ops := by
  induction ops with
  | nil => simp [lastPut]
  | cons p rest ih =>
    obtain ⟨k', v'⟩ := p
    simp only [lastPut]
    cases hrest : lastPut k rest with
    | some v =>
      simp only [Option.isSome_some, true_iff]
      obtain ⟨w, hw⟩ := ih.mp (by simp [hrest])
      exact ⟨w, List.mem_cons_of_mem _ hw⟩
    | none =>
      by_cases hk : k' = k
      · subst hk
        constructor
        · intro _
          exact ⟨v', List.mem_cons_self _ _⟩
        · intro _
          simp
      · simp only [if_neg hk, Option.isSome_none]
        rw [hrest] at ih
        simp only [Option.isSome_none, Bool.false_eq_true, false_iff] at ih ⊢
        rintro ⟨v, hv⟩
        rcases List.mem_cons.mp hv with heq | hmem
        · exact hk (congrArg Prod.fst heq).symm
        · exact ih ⟨v, hmem⟩

theorem mapOpt_mem (f : α → Option β) : ∀ (l : List α) (ys : List β),
    mapOpt f l = some ys → ∀ a ∈ l, ∃ y ∈ ys, f a = some y := by
  intro l
  induction l with
  | nil => intro ys _ a ha; simp at ha
  | cons x xs ih =>
    intro ys h a ha
    simp only [mapOpt] at h
    cases hx : f x with
    | none => rw [hx] at h; cases hxs : mapOpt f xs <;> rw [hxs] at h <;> cases h
    | some b =>
      rw [hx] at h
      cases hxs : mapOpt f xs with
      | none => rw [hxs] at h; cases h
      | some bs =>
        rw [hxs] at h
        injection h with h
        subst h
        rcases List.mem_cons.mp ha with rfl | hmem
        · exact ⟨b, List.mem_cons_self _ _, hx⟩
        · obtain ⟨y, hy, hfy⟩ := ih bs hxs a hmem
          exact ⟨y, List.mem_cons_of_mem _ hy, hfy⟩

theorem visitGraph_self_mem (h : List HeapCell) :
    ∀ (fuel id : Nat) (tr : List Nat), visitGraph h fuel id = some tr → id ∈ tr := by
  intro fuel id tr hv
  cases fuel with
  | zero => simp [visitGraph] at hv
  | succ f =>
    unfold visitGraph at hv
    split at hv
    · cases hv
    · injection hv with hv
      rw [← hv]
      exact List.mem_singleton_self id
    · split at hv
      · injection hv with hv
        rw [← hv]
        exact List.mem_cons_self _ _
      · cases hv
    · split at hv
      · injection hv with hv
        rw [← hv]
        exact List.mem_cons_self _ _
      · cases hv

theorem mem_cellIds_of_cellRef (vs : List Value) (v : Value) (c : Nat)
    (hmem : v ∈ vs) (hv : v = Value.cellRef c) : c ∈ cellIds vs := by
  subst hv
  exact List.mem_filterMap.mpr ⟨Value.cellRef c, hmem, rfl⟩

/-- Unfolding of `Object::visit_graph` on an object cell: one step of the
source's body (base hook, then the per-cell-property recursive calls). -/
theorem visitGraph_object_step (h : List HeapCell) (f id : Nat)
    (props : List (String × Value)) (tr : List Nat)
    (hc : h[id]? = some (.object props))
    (hv : visitGraph h (f + 1) id = some tr) :
    ∃ ts, mapOpt (fun c => visitGraph h f c) (cellIds (propValues props)) = some ts ∧
      tr = id :: ts.flatten := by
  unfold visitGraph at hv
  rw [hc] at hv
  dsimp only at hv
  cases hm : mapOpt (fun c => visitGraph h f c) (cellIds (propValues props)) with
  | none => rw [hm] at hv; cases hv
  | some ts =>
    rw [hm] at hv
    injection hv with hv
    exact ⟨ts, rfl, hv.symm⟩

theorem pushArg_eq (h : List HeapCell) (aid : Nat) (arg : String)
    (es : List Value) (props : List (String × Value))
    (hget : h[aid]? = some (.arrayObject es props)) (haid : aid < h.length) :
    pushArg h aid arg = (h ++ [HeapCell.primitiveString arg]).set aid
      (HeapCell.arrayObject (es ++ [Value.cellRef h.length]) props) := by
  unfold pushArg allocateCell
  dsimp only
  rw [List.getElem?_append_left haid, hget]

/-- Invariant of the argument-pushing loop: the array cell accumulates, in
order, references to the freshly allocated string cells; the string cells
land at consecutive ids starting at the old heap size; other cells are
untouched. -/
theorem pushArgs_spec : ∀ (l : List String) (h : List HeapCell) (aid : Nat)
    (es : List Value) (props : List (String × Value)),
    h[aid]? = some (.arrayObject es props) →
    (pushArgs h aid l)[aid]? = some (.arrayObject
        (es ++ (List.range l.length).map fun i => Value.cellRef (h.length + i)) props) ∧
    (∀ i, i < l.length →
      (pushArgs h aid l)[h.length + i]? = some (.primitiveString (l.getD i ""))) ∧
    (∀ j, j < h.length → j ≠ aid → (pushArgs h aid l)[j]? = h[j]?) := by
  intro l
  induction l with
  | nil =>
    intro h aid es props hget
    refine ⟨by simpa [pushArgs] using hget, ?_, ?_⟩
    · intro i hi; simp at hi
    · intro j _ _; rfl
  | cons a rest ih =>
    intro h aid es props hget
    have haid : aid < h.length := (List.getElem?_eq_some.mp hget).1
    have hpa := pushArg_eq h aid a es props hget haid
    have hlen1 : (h ++ [HeapCell.primitiveString a]).length = h.length + 1 := by simp
    have h1get : (pushArg h aid a)[aid]? =
        some (.arrayObject (es ++ [Value.cellRef h.length]) props) := by
      rw [hpa]
      exact List.getElem?_set_eq_of_lt _ (by simp [hlen1]; omega)
    have h1len : (pushArg h aid a).length = h.length + 1 := by
      rw [hpa]; simp
    obtain ⟨e1, s1, f1⟩ := ih (pushArg h aid a) aid (es ++ [Value.cellRef h.length]) props h1get
    have hstep : pushArgs h aid (a :: rest) = pushArgs (pushArg h aid a) aid rest := rfl
    refine ⟨?_, ?_, ?_⟩
    · rw [h1len] at e1
      have hfun : ((fun i => Value.cellRef (h.length + i)) ∘ Nat.succ) =
          (fun i => Value.cellRef (h.length + 1 + i)) := by
        funext i
        simp only [Function.comp]
        exact congrArg Value.cellRef (by omega)
      have hlist : es ++ List.map (fun i => Value.cellRef (h.length + i))
            (List.range (rest.length + 1)) =
          es ++ [Value.cellRef h.length] ++
            List.map (fun i => Value.cellRef (h.length + 1 + i)) (List.range rest.length) := by
        rw [List.range_succ_eq_map, List.map_cons, List.map_map, hfun, Nat.add_zero,
          List.append_cons]
      rw [hstep, e1]
      simp only [List.length_cons]
      rw [hlist]
    · intro i hi
      rw [hstep]
      cases i with
      | zero =>
        have hne : h.length ≠ aid := by omega
        have hframe := f1 h.length (by omega) hne
        rw [Nat.add_zero, hframe, hpa, List.getElem?_set_ne (Ne.symm hne),
          List.getElem?_concat_length]
        simp [List.getD]
      | succ i2 =>
        have hi2 : i2 < rest.length := by simpa using hi
        have := s1 i2 hi2
        rw [h1len] at this
        have harith : h.length + (i2 + 1) = h.length + 1 + i2 := by omega
        rw [harith, this]
        simp [List.getD]
    · intro j hj hne
      rw [hstep, f1 j (by omega) hne, hpa, List.getElem?_set_ne (fun e => hne e.symm),
        List.getElem?_append_left hj]

/-! ### Claim theorems -/

/-- C1: for every object and every sequence of `put` operations, `get(k)` on
a string key `k` that has been put returns the value of the most recent
`put(k, v)`; `put` on a string key always succeeds (inserting or
overwriting). -/
theorem put_get_last_put :
    (∀ (o : Object) (s : String) (v : Value), (o.put (.string s) v).1 = .ok ()) ∧
    (∀ (o : Object) (ops : List (String × Value)) (k : String) (v : Value),
      lastPut k ops = some v → ((applyPuts o ops).get (.string k)).1 = .ok v) := by
  constructor
  · intro o s v
    rw [put_string_eq]
  · intro o ops k v hlast
    rw [get_string_eq, lookup_applyPuts ops o k, hlast]

theorem put_get_last_put_witness :
    (Object.fresh.put (.string "a") Value.nil).1 = .ok () ∧
    ((applyPuts Object.fresh [("a", Value.number 1), ("a", Value.number 2)]).get
      (.string "a")).1 = .ok (Value.number 2) :=
  ⟨put_get_last_put.1 Object.fresh "a" Value.nil,
   put_get_last_put.2 Object.fresh [("a", Value.number 1), ("a", Value.number 2)] "a"
     (Value.number 2) rfl⟩

/-- C2 counterexample: the claim says `visit_graph` calls back into the
visitor once per outgoing cell reference, delegating the graph walk to the
visitor — i.e. visiting object 0 of `chainHeap` should report exactly itself
and its one direct reference, `[0, 1]`.  The code instead recurses into the
referenced cell's own `visit_graph`, so the callback trace is `[0, 1, 2]`:
it includes cell 2, which object 0 does not hold. -/
theorem visit_graph_not_delegating_cex :
    visitGraph chainHeap 10 0 = some [0, 1, 2] ∧
    0 :: cellIds (propValues [("b", Value.cellRef 1)]) = [0, 1] ∧
    ([0, 1, 2] : List Nat) ≠ [0, 1] :=
  ⟨by decide, by decide, by decide⟩

/-- C2 (amended): `visit_graph` reports the object itself, then runs the
recursion for exactly the `CellRef`-tagged property values (non-cell values
are skipped and never reach the visitor), invoking each referenced cell's
own `visit_graph` itself rather than delegating the walk to the visitor; in
particular every `CellRef` property value is reported in the trace. -/
theorem visit_graph_reports_all_cell_refs (h : List HeapCell) (fuel id : Nat)
    (props : List (String × Value)) (tr : List Nat)
    (hc : h[id]? = some (.object props))
    (hv : visitGraph h fuel id = some tr) :
    ∃ f2 ts, fuel = f2 + 1 ∧
      mapOpt (fun c => visitGraph h f2 c) (cellIds (propValues props)) = some ts ∧
      tr = id :: ts.flatten ∧
      ∀ v ∈ propValues props, ∀ c, v = Value.cellRef c → c ∈ tr := by
  cases fuel with
  | zero => simp [visitGraph] at hv
  | succ f =>
    obtain ⟨ts, hm, htr⟩ := visitGraph_object_step h f id props tr hc hv
    refine ⟨f, ts, rfl, hm, htr, ?_⟩
    intro v hvmem c hvc
    have hcid : c ∈ cellIds (propValues props) := mem_cellIds_of_cellRef _ v c hvmem hvc
    obtain ⟨t, ht, hft⟩ := mapOpt_mem _ _ _ hm c hcid
    rw [htr]
    exact List.mem_cons_of_mem _
      (List.mem_flatten.mpr ⟨t, ht, visitGraph_self_mem h f c t hft⟩)

theorem visit_graph_reports_all_cell_refs_witness :
    ∃ f2 ts, 3 = f2 + 1 ∧
      mapOpt (fun c => visitGraph cexHeap2 f2 c)
        (cellIds (propValues [("a", Value.cellRef 1), ("z", Value.boolean true)])) = some ts ∧
      ([0, 1] : List Nat) = 0 :: ts.flatten ∧
      ∀ v ∈ propValues [("a", Value.cellRef 1), ("z", Value.boolean true)],
        ∀ c, v = Value.cellRef c → c ∈ ([0, 1] : List Nat) :=
  visit_graph_reports_all_cell_refs cexHeap2 3 0
    [("a", Value.cellRef 1), ("z", Value.boolean true)] [0, 1] rfl rfl

/-- C3: the claim says the mark-phase traversal started by `visit_graph`
terminates on every object graph, including cyclic ones.  On the
self-referencing object of `selfLoopHeap`, `Object::visit_graph` recurses
into `value.as_cell()->visit_graph(visitor)` unconditionally, so the call
never returns: no recursion-depth budget suffices. -/
theorem visit_graph_self_cycle_diverges :
    ∀ fuel, visitGraph selfLoopHeap fuel 0 = none := by
  intro fuel
  induction fuel with
  | zero => rfl
  | succ f ih =>
    have ih2 : visitGraph [HeapCell.object [("self", Value.cellRef 0)]] f 0 = none := ih
    simp [visitGraph, selfLoopHeap, cellIds, propValues, mapOpt, ih2]

/-- C4: `Object::visit_graph` first reports the object itself via the
base-class hook `Cell::visit_graph`, and only afterwards reports each cell
reference held in its property map: the callback trace starts with the
object's own id and every directly held cell id appears in the remainder. -/
theorem visit_graph_self_first (h : List HeapCell) (fuel id : Nat)
    (props : List (String × Value)) (tr : List Nat)
    (hc : h[id]? = some (.object props))
    (hv : visitGraph h fuel id = some tr) :
    ∃ rest, tr = id :: rest ∧ ∀ c ∈ cellIds (propValues props), c ∈ rest := by
  cases fuel with
  | zero => simp [visitGraph] at hv
  | succ f =>
    obtain ⟨ts, hm, htr⟩ := visitGraph_object_step h f id props tr hc hv
    refine ⟨ts.flatten, htr, ?_⟩
    intro c hcid
    obtain ⟨t, ht, hft⟩ := mapOpt_mem _ _ _ hm c hcid
    exact List.mem_flatten.mpr ⟨t, ht, visitGraph_self_mem h f c t hft⟩

theorem visit_graph_self_first_witness :
    ∃ rest, ([0, 1] : List Nat) = 0 :: rest ∧
      ∀ c ∈ cellIds (propValues [("n", Value.nil), ("x", Value.cellRef 1)]), c ∈ rest :=
  visit_graph_self_first wHeap 5 0 [("n", Value.nil), ("x", Value.cellRef 1)] [0, 1] rfl rfl

/-- C5: on a fresh object, `contains(k)` answers true exactly when some
`put(k, _)` occurred earlier in the executed sequence (there is no delete
operation, so an inserted key stays present). -/
theorem contains_iff_was_put (ops : List (String × Value)) (k : String) :
    ((applyPuts Object.fresh ops).contains (.string k)).1 = .ok true ↔
      ∃ v, (k, v) ∈ ops := by
  rw [show ((applyPuts Object.fresh ops).contains (.string k)).1 =
      Outcome.ok (mapLookup k (applyPuts Object.fresh ops).m_properties).isSome from rfl]
  rw [lookup_applyPuts ops Object.fresh k, ← lastPut_isSome_iff k ops]
  cases hlast : lastPut k ops with
  | some v => simp
  | none => simp [Object.fresh, mapLookup]

/-- C6: calling `get`, `put` or `contains` with a `PropertyKey` that is not
string-form trips the `assert(key.is_string())` and aborts (an invariant
violation, not a catchable language-level exception): no value is returned
and the object is untouched. -/
theorem non_string_key_fails_fast (o : Object) (key : PropertyKey) (v : Value)
    (h : key.is_string = false) :
    o.get key = (.assertFail, o) ∧ o.put key v = (.assertFail, o) ∧
      o.contains key = (.assertFail, o) := by
  refine ⟨?_, ?_, ?_⟩ <;> simp [Object.get, Object.put, Object.contains, h]

theorem non_string_key_fails_fast_witness :
    (PropertyKey.number 3).is_string = false ∧
    Object.fresh.get (.number 3) = (.assertFail, Object.fresh) ∧
    Object.fresh.put (.number 3) Value.nil = (.assertFail, Object.fresh) ∧
    Object.fresh.contains (.number 3) = (.assertFail, Object.fresh) := by
  have h := non_string_key_fails_fast Object.fresh (.number 3) Value.nil rfl
  exact ⟨rfl, h.1, h.2.1, h.2.2⟩

/-- C7: `contains` is a pure query: it leaves the object's state unchanged,
and calling it any number of times (threading the state through) produces
exactly the result and state of a single call. -/
theorem contains_is_pure (o : Object) (key : PropertyKey) :
    (o.contains key).2 = o ∧ ∀ n, containsN o key n = o.contains key := by
  have h2 : (o.contains key).2 = o := by
    unfold Object.contains
    split <;> rfl
  refine ⟨h2, ?_⟩
  intro n
  induction n with
  | zero => rfl
  | succ m ih =>
    show ((containsN o key m).2).contains key = o.contains key
    rw [ih, h2]

/-- C8: in script mode the host populates the global object's `"args"`
property with a reference to a freshly allocated array whose elements are,
in order, references to string cells holding the script name followed by
each passed argument. -/
theorem script_mode_args_setup (st : HostState) (script : String) (passed : List String) :
    ((setupArgs st script passed).global.get (.string "args")).1 =
        .ok (Value.cellRef st.heap.length) ∧
    (setupArgs st script passed).heap[st.heap.length]? =
        some (.arrayObject ((List.range (script :: passed).length).map
          fun i => Value.cellRef (st.heap.length + 1 + i)) []) ∧
    ∀ i, i < (script :: passed).length →
      (setupArgs st script passed).heap[st.heap.length + 1 + i]? =
        some (.primitiveString ((script :: passed).getD i "")) := by
  have hbase : (st.heap ++ [HeapCell.arrayObject [] []])[st.heap.length]? =
      some (HeapCell.arrayObject [] []) := List.getElem?_concat_length _ _
  obtain ⟨e1, s1, _⟩ := pushArgs_spec (script :: passed)
      (st.heap ++ [HeapCell.arrayObject [] []]) st.heap.length [] [] hbase
  have hsetup : (setupArgs st script passed).heap =
      pushArgs (st.heap ++ [HeapCell.arrayObject [] []]) st.heap.length
        (script :: passed) := rfl
  have hglobal : (setupArgs st script passed).global =
      (st.global.put (.string "args") (Value.cellRef st.heap.length)).2 := rfl
  refine ⟨?_, ?_, ?_⟩
  · simp only [hglobal, put_string_eq, get_string_eq]
    rw [mapLookup_mapInsert_self]
  · rw [hsetup, e1]
    simp
  · intro i hi
    have hs := s1 i (by simpa using hi)
    rw [hsetup]
    simpa using hs

theorem script_mode_args_setup_witness :
    ((setupArgs st0 "s" ["a"]).global.get (.string "args")).1 =
        .ok (Value.cellRef st0.heap.length) ∧
    (setupArgs st0 "s" ["a"]).heap[st0.heap.length]? =
        some (.arrayObject ((List.range (("s" : String) :: ["a"]).length).map
          fun i => Value.cellRef (st0.heap.length + 1 + i)) []) ∧
    (setupArgs st0 "s" ["a"]).heap[st0.heap.length + 1 + 1]? =
        some (.primitiveString ((("s" : String) :: ["a"]).getD 1 "")) := by
  obtain ⟨a, b, c⟩ := script_mode_args_setup st0 "s" ["a"]
  exact ⟨a, b, c 1 (by decide)⟩

/-- C9: `get` on a string key that is absent signals a lookup failure via
`std::map::at` — it returns no value (in particular no `Nil` default), does
not insert the key, and leaves the property map unchanged. -/
theorem get_missing_key_no_default (o : Object) (s : String)
    (h : mapLookup s o.m_properties = none) :
    o.get (.string s) = (.lookupFail, o) := by
  rw [get_string_eq, h]

theorem get_missing_key_no_default_witness :
    mapLookup "x" Object.fresh.m_properties = none ∧
    Object.fresh.get (.string "x") = (.lookupFail, Object.fresh) :=
  ⟨rfl, get_missing_key_no_default Object.fresh "x" rfl⟩

/-- C10: the `assert(… >= 0)` checks on the three `size_t` counters in
`read_next_piece` hold in every state any token sequence can produce,
because the counters are unsigned; a closing token with no matching opener
wraps the counter to `2^64 - 1` (a large positive value) instead of making
it negative, so the assertions can never fire. -/
theorem piece_counters_assertions :
    (∀ (w : Nat) (s : PieceCounters) (ts : List TokenType),
      countersAssertion (runTokens w s ts)) ∧
    (runTokens 64 initCounters [TokenType.parenClose]).open_parens = 2 ^ 64 - 1 := by
  constructor
  · intro w s ts
    exact ⟨Nat.zero_le _, Nat.zero_le _, Nat.zero_le _⟩
  · rfl

end Ore

